import Mathlib

/-!
Verification of `job_app_streamlit.py` (job-application assistant) and of the
résumé-to-structured-record parser its specification selects as the core.

The pure helper functions of the source file (`extract_fit_score`,
`validate_outputs`, the local-variable dataflow of `main`'s processing branch)
are embedded directly from `src/job_app_streamlit.py`.  The résumé parser the
specification describes is not part of the single source file of the
repository (the spec says it lives in variant files of the corpus), so it is
modelled from the spec, with each modelling decision recorded in a doc
comment.
-/

namespace JobApp

/-! ## Generic character-list helpers

Python string primitives (`str.split`, `str.strip`, `str.lower`, substring
tests) are embedded as executable functions on `List Char`; `\d` and `\s` of
Python's `re` are modelled as ASCII digits / whitespace, which is exact for
all inputs used here. -/

/-- `str.strip()`: drop whitespace from both ends. -/
def trimL (cs : List Char) : List Char :=
  ((cs.dropWhile Char.isWhitespace).reverse.dropWhile Char.isWhitespace).reverse

/-- Split on every character satisfying `p`, keeping empty segments, as
Python `str.split(sep)` does for a one-character separator. -/
def splitOnP (p : Char → Bool) : List Char → List (List Char)
  | [] => [[]]
  | c :: rest =>
    let r := splitOnP p rest
    if p c then [] :: r
    else
      match r with
      | [] => [[c]]
      | h :: t => (c :: h) :: t

/-- Python `str.split(sep)` for a multi-character separator: non-overlapping
matches, left to right, keeping empty segments.  `fuel` bounds the recursion;
`cs.length + 1` is always enough. -/
def splitOnSeq (fuel : Nat) (sep : List Char) (cs : List Char) : List (List Char) :=
  match fuel with
  | 0 => [cs]
  | fuel + 1 =>
    match cs with
    | [] => [[]]
    | c :: rest =>
      if sep.isPrefixOf (c :: rest) then
        [] :: splitOnSeq fuel sep ((c :: rest).drop sep.length)
      else
        match splitOnSeq fuel sep rest with
        | [] => [[c]]
        | h :: t => (c :: h) :: t

/-- First occurrence of `sep` in `cs`: `some (before, after)` where `cs`
is `before ++ sep ++ after`, `before` shortest possible; `none` if `sep`
does not occur. -/
def breakOn (sep : List Char) : List Char → Option (List Char × List Char)
  | [] => none
  | c :: rest =>
    if sep.isPrefixOf (c :: rest) then some ([], (c :: rest).drop sep.length)
    else (breakOn sep rest).map (fun q => (c :: q.1, q.2))

/-- Python's `needle in hay` substring test (for a non-empty needle). -/
def containsSub (needle hay : List Char) : Bool :=
  (breakOn needle hay).isSome

/-- ASCII-uppercase every character (`str.upper()`). -/
def upperL (cs : List Char) : List Char := cs.map Char.toUpper

/-- ASCII-lowercase every character (`str.lower()`). -/
def lowerL (cs : List Char) : List Char := cs.map Char.toLower

/-- Replace the last element of a list, if any (in-place mutation of the
last recorded bullet in the source). -/
def updateLast (f : α → α) : List α → List α
  | [] => []
  | a :: rest =>
    match rest with
    | [] => [f a]
    | b :: t => a :: updateLast f (b :: t)

/-- A binder-free conjunction of `P` over the members of a list. -/
def listAll (P : α → Prop) : List α → Prop
  | [] => True
  | a :: rest => P a ∧ listAll P rest

/-- Numeric value of a string of decimal digits, as Python `int()` reads it. -/
def digitsVal (ds : List Char) : Nat :=
  ds.foldl (fun a c => 10 * a + (c.toNat - 48)) 0

/-! ## `extract_fit_score` (src/job_app_streamlit.py lines 656-671)

`re.search(r'(\d+)%', assessment_text)` finds the leftmost position where a
run of digits is immediately followed by `%`; the greedy `\d+` captures the
whole run.  `takeDigits`/`searchPct` embed exactly that search. -/

/-- Split a character list into its maximal digit prefix and the rest. -/
def takeDigits : List Char → List Char × List Char
  | [] => ([], [])
  | c :: cs =>
    if c.isDigit then
      let q := takeDigits cs
      (c :: q.1, q.2)
    else ([], c :: cs)

/-- `re.search(r'(\d+)%', ·)`: value of the leftmost maximal digit run that
is immediately followed by `'%'`, or `none`. -/
def searchPct : List Char → Option Nat
  | [] => none
  | c :: cs =>
    if c.isDigit then
      match (takeDigits (c :: cs)).2, (takeDigits (c :: cs)).1 with
      | '%' :: _, ds => some (digitsVal ds)
      | _, _ => searchPct cs
    else searchPct cs

/-- `extract_fit_score` from the source: score is the first percentage found
(default 50), category thresholds 75 and 50. -/
def extract_fit_score (assessment_text : String) : Nat × String :=
  let score := (searchPct assessment_text.toList).getD 50
  let category := if score ≥ 75 then "HIGH" else if score ≥ 50 then "MEDIUM" else "LOW"
  (score, category)

/-- Declarative reading of the pattern `(\d+)%` matching at offset `i` of
`cs` with captured value `n`: from position `i` the text is a non-empty
all-digit block followed by `'%'`. -/
def pctMatchAt (cs : List Char) (i n : Nat) : Prop :=
  ∃ ds rest, cs.drop i = ds ++ '%' :: rest ∧ ds ≠ [] ∧
    (∀ c ∈ ds, c.isDigit = true) ∧ n = digitsVal ds

/-! ## A small regular-expression engine

`validate_outputs` applies a handful of fixed `re` patterns (character
classes, literals, alternation, greedy `+`/`*`/`?`, `{3}`).  The engine below
embeds Python's backtracking semantics for exactly these constructs: `lens`
returns the candidate match lengths of a pattern against a prefix of the
text, in Python's priority order (alternation left to right, quantifiers
greedy), so the head of the list is the length `re` would match. -/

/-- Regular-expression syntax used by the source's patterns. -/
inductive RE where
  | eps : RE
  | cls : (Char → Bool) → RE
  | cat : RE → RE → RE
  | alt : RE → RE → RE
  | star : RE → RE

/-- Candidate lengths for iterating a body matcher `f` (Kleene star), longest
first; `fuel` bounds the number of iterations, each of which must consume at
least one character, so `cs.length` iterations always suffice. -/
def starLens (f : List Char → List Nat) : Nat → List Char → List Nat
  | 0, _ => [0]
  | fuel + 1, cs =>
    (((f cs).filter (0 < ·)).flatMap fun k =>
      (starLens f fuel (cs.drop k)).map (k + ·)) ++ [0]

/-- Candidate match lengths of `r` against a prefix of `cs`, in backtracking
priority order. -/
def lens : RE → List Char → List Nat
  | .eps, _ => [0]
  | .cls _, [] => []
  | .cls p, c :: _ => if p c then [1] else []
  | .cat a b, cs => (lens a cs).flatMap fun n => (lens b (cs.drop n)).map (n + ·)
  | .alt a b, cs => lens a cs ++ lens b cs
  | .star r, cs => starLens (lens r) cs.length cs

/-- `re.search(pattern, text)` as a Boolean: some suffix has a match. -/
def searchB (r : RE) (cs : List Char) : Bool :=
  cs.tails.any fun suffix => !(lens r suffix).isEmpty

/-- One scan step of `re.findall`: count non-overlapping matches left to
right, resuming after each match.  `fuel` bounds the scan; `cs.length + 1`
always suffices since every step consumes at least one character. -/
def countMatchesFuel (r : RE) : Nat → List Char → Nat
  | 0, _ => 0
  | fuel + 1, cs =>
    match (lens r cs).head? with
    | some n => 1 + countMatchesFuel r fuel (cs.drop (max n 1))
    | none =>
      match cs with
      | [] => 0
      | _ :: t => countMatchesFuel r fuel t

/-- `len(re.findall(pattern, text))`. -/
def findallCount (r : RE) (cs : List Char) : Nat :=
  countMatchesFuel r (cs.length + 1) cs

/-- A literal string, case-sensitive. -/
def litCS (s : String) : RE :=
  s.toList.foldr (fun c acc => .cat (.cls (· = c)) acc) .eps

/-- A literal string under `re.IGNORECASE` (ASCII case folding). -/
def litCI (s : String) : RE :=
  s.toList.foldr (fun c acc => .cat (.cls (fun x => x.toLower = c.toLower)) acc) .eps

/-- Greedy `r+`. -/
def rePlus (r : RE) : RE := .cat r (.star r)

/-- Greedy `r?`. -/
def reOpt (r : RE) : RE := .alt r .eps

/-- Left-to-right alternation of a non-empty list of branches. -/
def reAlts : List RE → RE
  | [] => .eps
  | [r] => r
  | r :: s :: t => .alt r (reAlts (s :: t))

/-- `\d` (ASCII). -/
def reDigit : RE := .cls Char.isDigit

/-- `\s` (ASCII whitespace). -/
def reWs : RE := .cls Char.isWhitespace

/-- `[\d,]`. -/
def reDigitComma : RE := .cls fun c => c.isDigit || c = ','

/-! ## `validate_outputs` (src/job_app_streamlit.py lines 580-654) -/

/-- `(?:million|M|billion|B|thousand|K)`, case-insensitive at its use sites. -/
def kwMagnitude : RE :=
  reAlts [litCI "million", litCI "M", litCI "billion", litCI "B", litCI "thousand", litCI "K"]

/-- `r'\$[\d,]+\s*(?:million|M|billion|B|thousand|K)'`. -/
def achPat1 : RE :=
  .cat (.cls (· = '$')) (.cat (rePlus reDigitComma) (.cat (.star reWs) kwMagnitude))

/-- `r'\d+(?:,\d{3})*\s*(?:million|M|billion|B|thousand|K)'`. -/
def achPat2 : RE :=
  .cat (rePlus reDigit)
    (.cat (.star (.cat (.cls (· = ',')) (.cat reDigit (.cat reDigit reDigit))))
      (.cat (.star reWs) kwMagnitude))

/-- `r'\d+%'`. -/
def achPat3 : RE := .cat (rePlus reDigit) (.cls (· = '%'))

/-- `r'\d+\+?\s*(?:people|users|customers|clients|employees|team members)'`. -/
def achPat4 : RE :=
  .cat (rePlus reDigit)
    (.cat (reOpt (.cls (· = '+')))
      (.cat (.star reWs)
        (reAlts [litCI "people", litCI "users", litCI "customers", litCI "clients",
          litCI "employees", litCI "team members"])))

/-- `achievement_patterns` in source order. -/
def achievementPatterns : List RE := [achPat1, achPat2, achPat3, achPat4]

/-- `r'\$[\d,]+|[\d,]+\s*(?:million|M)'` — the final-reminder pattern,
searched without `re.IGNORECASE`. -/
def tipPat : RE :=
  .alt (.cat (.cls (· = '$')) (rePlus reDigitComma))
    (.cat (rePlus reDigitComma) (.cat (.star reWs) (.alt (litCS "million") (litCS "M"))))

/-- Warning text appended inside the CV-section loop (an f-string with no
placeholders in the source). -/
def cvSectionMsg : String :=
  "⚠️ Section contains many achievements. Please verify all items belong to the employer listed in this section."

/-- Warning text appended inside the cover-letter loop. -/
def clAchievementMsg : String :=
  "⚠️ Achievement with specific numbers mentioned. Please verify it\x27s attributed to the correct employer from your original CV."

/-- The `💡 Tip` reminder appended when the cover letter mentions money
figures and no warning was produced by the loop. -/
def clTipMsg : String :=
  "💡 Tip: Double-check that any specific achievements or numbers mentioned are attributed to the correct employer."

/-- `revised_cv.split('###')`. -/
def cvSections (revised_cv : String) : List String :=
  (splitOnSeq (revised_cv.toList.length + 1) "###".toList revised_cv.toList).map
    fun l => String.mk l

/-- The inner `for pattern in achievement_patterns` loop of the CV check:
on the first pattern with at least two matches in the section and more than
eight `'-'`-separated pieces, one warning is appended and the inner loop
breaks (returning at most one warning for this section). -/
def sectionScan (sect : String) : List RE → List String
  | [] => []
  | p :: ps =>
    if 2 ≤ findallCount p sect.toList then
      if 8 < (splitOnP (· = '-') sect.toList).length then [cvSectionMsg]
      else sectionScan sect ps
    else sectionScan sect ps

/-- Warnings the CV loop records for one `###` section. -/
def sectionWarnings (sect : String) : List String :=
  sectionScan sect achievementPatterns

/-- The `for line in cl_lines` loop: the break exits the whole loop, so at
most one warning is recorded. -/
def clScan : List String → List String
  | [] => []
  | line :: rest =>
    let hasCompanyRef := ["at ", "with ", "for "].any
      fun w => containsSub w.toList (lowerL line.toList)
    let hasQuantified := achievementPatterns.any fun p => searchB p line.toList
    if hasCompanyRef && hasQuantified then [clAchievementMsg] else clScan rest

/-- `validate_outputs(revised_cv, cover_letter, cv_extraction)`, returning
the pair `(warnings['cv_warnings'], warnings['cover_letter_warnings'])`.
The `employers` list the source computes from `cv_extraction` is never read
afterwards and cannot affect the returned dict, so it is not modelled. -/
def validate_outputs (revised_cv cover_letter cv_extraction : String) :
    List String × List String :=
  if cv_extraction = "" then ([], [])
  else
    let cvWarnings := (cvSections revised_cv).flatMap sectionWarnings
    let clLines := (splitOnP (· = '.') cover_letter.toList).map fun l => String.mk l
    let clWarnings := clScan clLines
    let clWarnings' :=
      if searchB tipPat cover_letter.toList && clWarnings.isEmpty
      then clWarnings ++ [clTipMsg] else clWarnings
    (cvWarnings, clWarnings')

/-! ## Local-variable dataflow of `main`'s processing branch
(src/job_app_streamlit.py lines 736-835)

Python decides the local names of a function statically: every name assigned
anywhere in the function body is local, and reading a local before its first
assignment raises `UnboundLocalError` (a subclass of `NameError`).  The
`try:` block of the processing branch is modelled as its sequence of
statements, each recording which local names it reads and which local name
it assigns; calls through globals (`st`, `os`, `tempfile`, the module's own
functions) always resolve and are not tracked.  The interior of the
`for task` / `for location` loops is flattened to its assignments, which is
enough for before/after-assignment dataflow.  The `except Exception` handler
only reports the error and returns, storing nothing in
`st.session_state`. -/

/-- One statement of the `try:` block: an assignment to a local, a plain
expression statement, or an assignment into `st.session_state` (the only
way results are published). -/
inductive PyStmt where
  | assign (target : String) (reads : List String)
  | expr (reads : List String)
  | sessionStore (reads : List String)

/-- The `try:` block of `main`'s processing branch, statement by statement
(lines 738-827 of the source). -/
def mainTryBlock : List PyStmt :=
  [ .assign "resume_path" [],                                   -- line 739
    .assign "job_desc_path" [],                                  -- lines 742-745 (both branches)
    .assign "progress_bar" [],                                   -- line 748
    .assign "status_text" [],                                    -- line 749
    .expr ["status_text"],                                       -- line 751
    .expr ["progress_bar"],                                      -- line 752
    .assign "crew" ["resume_path", "job_desc_path"],             -- line 755
    .expr ["status_text"],                                       -- line 757
    .expr ["progress_bar"],                                      -- line 758
    .assign "inputs" ["job_desc_path", "resume_path"],           -- lines 760-763
    .assign "result" ["crew", "inputs"],                         -- line 765 (kickoff succeeds)
    .expr ["status_text"],                                       -- line 767
    .expr ["progress_bar"],                                      -- line 768
    .assign "task_outputs" [],                                   -- line 771
    .assign "task" ["crew"],                                     -- line 772 (loop header)
    .assign "task_outputs" ["task_outputs", "task"],             -- lines 773-774 (loop body)
    .assign "fit_assessment_output" ["task_outputs", "result"],  -- line 777
    .assign "cv_extraction_output" ["task_outputs"],             -- line 778
    .assign "validation_warnings"
      ["revised_cv", "cover_letter", "cv_extraction_output"],    -- line 781
    .assign "temp_dir" [],                                       -- line 784
    .assign "possible_locations" ["temp_dir"],                   -- lines 785-790
    .assign "revised_cv" [],                                     -- line 792
    .assign "cover_letter" [],                                   -- line 793
    .assign "location" ["possible_locations"],                   -- line 796 (loop header)
    .assign "cv_path" ["location"],                              -- line 797
    .assign "cl_path" ["location"],                              -- line 798
    .assign "revised_cv" ["cv_path"],                            -- lines 801-802
    .assign "cover_letter" ["cl_path"],                          -- lines 803-804
    .expr ["revised_cv", "cover_letter"],                        -- lines 808-809
    .assign "result_str" ["result"],                             -- line 810
    .assign "revised_cv" ["result_str"],                         -- line 813
    .assign "cover_letter" ["result_str"],                       -- line 814
    .sessionStore ["fit_assessment_output", "revised_cv", "cover_letter",
      "result", "task_outputs", "validation_warnings"],          -- lines 818-825
    .sessionStore [],                                            -- line 826
    .sessionStore [],                                            -- line 827
    .expr ["status_text"],                                       -- line 829
    .expr ["progress_bar"] ]                                     -- line 830

/-- The local names of the function region: every assignment target of the
block (Python computes the set from the whole function body; the names
assigned outside the `try:` block are never read inside it). -/
def localNames (prog : List PyStmt) : List String :=
  prog.foldr (fun s acc => match s with | .assign x _ => x :: acc | _ => acc) []

/-- State of the dataflow interpreter: which locals are bound so far, and
whether anything has been stored into `st.session_state`. -/
structure PyEnv where
  bound : List String
  stored : Bool

/-- A read of `x` succeeds unless `x` is a local that is not yet bound. -/
def readOk (locals bound : List String) (x : String) : Bool :=
  !(locals.contains x) || bound.contains x

/-- Run one statement: on the first read of an unbound local the statement
raises `UnboundLocalError` naming it. -/
def runPyStmt (locals : List String) (env : PyEnv) :
    PyStmt → Except String PyEnv
  | .assign x reads =>
    match reads.find? (fun r => !readOk locals env.bound r) with
    | some r => .error r
    | none => .ok { env with bound := env.bound ++ [x] }
  | .expr reads =>
    match reads.find? (fun r => !readOk locals env.bound r) with
    | some r => .error r
    | none => .ok env
  | .sessionStore reads =>
    match reads.find? (fun r => !readOk locals env.bound r) with
    | some r => .error r
    | none => .ok { env with stored := true }

/-- Run the block until it finishes or a statement raises; the result is the
environment at exit together with the unbound local that raised, if any
(control then moves to the `except` handler, which stores nothing). -/
def runTryBlock (locals : List String) : List PyStmt → PyEnv → PyEnv × Option String
  | [], env => (env, none)
  | s :: rest, env =>
    match runPyStmt locals env s with
    | .ok env' => runTryBlock locals rest env'
    | .error r => (env, some r)

/-- Execution of the processing branch on a run where `crew.kickoff`
succeeds: all statements of the `try:` block from an environment where no
local is bound yet and nothing has been stored. -/
def mainProcessingRun : PyEnv × Option String :=
  runTryBlock (localNames mainTryBlock) mainTryBlock ⟨[], false⟩

/-! ## The résumé-to-structured-record parser

Modelled from the spec: the spec (§1, §2) selects as the system's core a
résumé parser that lives in variant files of the repository's corpus, none
of which are under `src/`; `src/job_app_streamlit.py` only delegates CV
parsing to an external agent.  The definitions below therefore follow the
spec's §3-§4 and §6-§7 word by word; every place where the spec leaves a
choice open is marked in a doc comment. -/

/-- §3: a `Position` of the structured record. -/
structure Position where
  employer : String
  title : String
  dates : String
  location : String
  responsibilities : List String
deriving Repr, DecidableEq

/-- §3: the skills inventory, technical and soft, insertion order kept. -/
structure Skills where
  technical : List String
  soft : List String
deriving Repr, DecidableEq

/-- §3: the terminal output record. -/
structure StructuredResume where
  positions : List Position
  education : List String
  skills : Skills
deriving Repr, DecidableEq

/-- §4.2: the section-tracker state. -/
inductive Sect where
  | nosection
  | experience
  | education
  | skills
deriving Repr, DecidableEq

/-- Modelled from the spec: a position under construction.  Each recorded
bullet carries the index of the input line that created it — ghost data used
to state the instance-level "no cross-attribution" invariant; `toPosition`
erases it. -/
structure PosB where
  employer : String
  title : String
  dates : String
  location : String
  resp : List (Nat × String)
deriving Repr, DecidableEq

/-- Erase the ghost line indices of a built position. -/
def toPosition (p : PosB) : Position :=
  ⟨p.employer, p.title, p.dates, p.location, p.resp.map Prod.snd⟩

/-- Modelled from the spec (§4.6): the record builder's cross-line state:
current section, the in-progress position (if any), the sealed positions,
the education lines, the two skills lists, the employer headings encountered
so far (ghost, with their line index), and the index of the next line
(ghost). -/
structure BuildState where
  sec : Sect
  cur : Option PosB
  donePs : List PosB
  edu : List String
  tech : List String
  soft : List String
  hds : List (Nat × String)
  idx : Nat
deriving Repr, DecidableEq

/-- §4.1 Line Normalizer: split on line breaks, trim each line (which also
removes carriage returns), drop empty lines (which collapses blank-line
runs). -/
def normalize (t : String) : List String :=
  ((splitOnP (· = '\n') t.toList).map fun l => String.mk (trimL l)).filter
    fun l => l ≠ ""

/-- §4.2 Section Tracker: a line is a section header if its uppercased form
contains a marker phrase; `PROFESSIONAL EXPERIENCE` and `SPECIFIC SKILLS`
are covered by the `EXPERIENCE` / `SKILLS` substring tests.  Checked in the
spec's listing order. -/
def sectionOf (line : String) : Option Sect :=
  let up := upperL line.toList
  if containsSub "EXPERIENCE".toList up then some .experience
  else if containsSub "EDUCATION".toList up then some .education
  else if containsSub "SKILLS".toList up then some .skills
  else none

/-- §4.3 rule 2: heading separator — an en-dash or hyphen surrounded by
spaces. -/
def hasHeadingSep (line : String) : Bool :=
  containsSub " – ".toList line.toList || containsSub " - ".toList line.toList

/-- Number of whitespace-delimited tokens of a line. -/
def tokenCount (line : String) : Nat :=
  ((splitOnP Char.isWhitespace line.toList).filter fun l => l ≠ []).length

/-- §4.3 rule 2: `EMPLOYER_HEADING` test — a heading separator, or the
fallback heuristic (no digit characters, at most ten whitespace-delimited
tokens, starts with an uppercase letter). -/
def isEmployerHeading (line : String) : Bool :=
  hasHeadingSep line ||
    (line.toList.all (fun c => !c.isDigit) && tokenCount line ≤ 10 &&
      (match line.toList.head? with
       | some c => c.isUpper
       | none => false))

/-- Modelled from the spec (§3, glossary): the employer name "as found in
the heading line": the part before the first heading separator, trimmed
(scenario A extracts `Acme Corp` from `Acme Corp – Consulting`); the whole
line when there is no separator.  The en-dash separator is tried first. -/
def employerOf (line : String) : String :=
  match breakOn " – ".toList line.toList with
  | some q => String.mk (trimL q.1)
  | none =>
    match breakOn " - ".toList line.toList with
    | some q => String.mk (trimL q.1)
    | none => line

/-- §4.3 rule 3: if the line contains a 4-digit year, the substring from the
year to the end of the line is captured as the dates text (the spec's "a
4-digit year followed by trailing text"); empty when no year occurs. -/
def yearDates : List Char → String
  | [] => ""
  | c :: rest =>
    if (c :: rest).take 4 |>.all Char.isDigit then
      if (c :: rest).length ≥ 4 then String.mk (trimL (c :: rest)) else ""
    else yearDates rest

/-- §4.4 Skills-Section Splitter: split on `|` or `,`, trim, drop empties. -/
def skillToks (line : String) : List String :=
  ((splitOnP (fun c => c = '|' || c = ',') line.toList).map
    fun l => String.mk (trimL l)).filter fun tk => tk ≠ ""

/-- §4.4: the tunable technical-keyword configuration list, as the spec
enumerates it. -/
def technicalKeywords : List String :=
  ["excel", "python", "software", "data", "stata", "powerpoint"]

/-- §4.4: a token is technical if it case-insensitively contains one of the
keywords. -/
def isTechnical (tk : String) : Bool :=
  technicalKeywords.any fun k => containsSub k.toList (lowerL tk.toList)

/-- §4.3 Experience-Section Line Tagger, one content line, rules applied in
priority order.  Rule 1: a `•` line is always a bullet; empty bullet text is
discarded, and a bullet before any employer heading has no position to join
and is likewise discarded (§3: a position is never created without an
employer).  Rule 2 seals the in-progress position and starts a new one.
Rule 3 fills an empty `title` (capturing `dates` when a year occurs and
`dates` is still empty); rule 4 is the continuation default. -/
def expLine (s : BuildState) (line : String) : BuildState :=
  match line.toList with
  | '•' :: rest =>
    let txt := String.mk (trimL rest)
    if txt = "" then { s with idx := s.idx + 1 }
    else
      match s.cur with
      | none => { s with idx := s.idx + 1 }
      | some p =>
        { s with cur := some { p with resp := p.resp ++ [(s.idx, txt)] }, idx := s.idx + 1 }
  | _ =>
    if isEmployerHeading line then
      { s with
        donePs := s.donePs ++ s.cur.toList,
        cur := some ⟨employerOf line, "", "", "", []⟩,
        hds := s.hds ++ [(s.idx, employerOf line)],
        idx := s.idx + 1 }
    else
      match s.cur with
      | none => { s with idx := s.idx + 1 }
      | some p =>
        if p.title = "" then
          { s with
            cur := some { p with
              title := line,
              dates := if p.dates = "" then yearDates line.toList else p.dates },
            idx := s.idx + 1 }
        else if p.resp.isEmpty then
          { s with cur := some { p with title := p.title ++ " " ++ line }, idx := s.idx + 1 }
        else
          { s with
            cur := some { p with resp := updateLast (fun b => (b.1, b.2 ++ " " ++ line)) p.resp },
            idx := s.idx + 1 }

/-- §4.2, §4.6: process one normalized line.  A section-header line switches
the section and seals the in-progress position (§3: a position becomes
immutable when the end of the experience section is reached); any other line
is routed by the current section (no section: ignored). -/
def stepLine (s : BuildState) (line : String) : BuildState :=
  match sectionOf line with
  | some sec' =>
    { s with sec := sec', donePs := s.donePs ++ s.cur.toList, cur := none, idx := s.idx + 1 }
  | none =>
    match s.sec with
    | .nosection => { s with idx := s.idx + 1 }
    | .experience => expLine s line
    | .education => { s with edu := s.edu ++ [line], idx := s.idx + 1 }
    | .skills =>
      let toks := skillToks line
      { s with
        tech := s.tech ++ toks.filter isTechnical,
        soft := s.soft ++ toks.filter (fun tk => !isTechnical tk),
        idx := s.idx + 1 }

/-- The builder's initial state (§4.2: initial section is NONE). -/
def initState : BuildState := ⟨.nosection, none, [], [], [], [], [], 0⟩

/-- Run the record builder over the whole normalized line sequence. -/
def buildRun (t : String) : BuildState :=
  (normalize t).foldl stepLine initState

/-- The built positions with their ghost bullet-line indices: the sealed
positions followed by the end-of-input flush of the in-progress position
(§4.6). -/
def positionsB (t : String) : List PosB :=
  (buildRun t).donePs ++ (buildRun t).cur.toList

/-- §4.6: the structured record of an input text. -/
def parse (t : String) : StructuredResume :=
  let s := buildRun t
  ⟨(s.donePs ++ s.cur.toList).map toPosition, s.edu, ⟨s.tech, s.soft⟩⟩

/-- §7: the error taxonomy's fatal case. -/
inductive ParseError where
  | extractionFailure
deriving Repr, DecidableEq

/-- Modelled from the spec (§6, §7): the minimum usable input length is "a
configuration threshold, not a law of nature"; the spec fixes no number, so
the model uses 20 characters. -/
def minUsableLength : Nat := 20

/-- §7: the parser's entry point — empty or too-short input is an
extraction failure and the pipeline is not run; otherwise the structured
record is produced (NoSectionsFound is not fatal). -/
def parseResume (t : String) : Except ParseError StructuredResume :=
  if t.length < minUsableLength then .error .extractionFailure
  else .ok (parse t)

/-- The ghost bullet-line indices recorded anywhere in the state, in list
order: sealed positions first, then the in-progress position. -/
def allIdx (s : BuildState) : List Nat :=
  ((s.donePs ++ s.cur.toList).map fun p => p.resp.map Prod.fst).flatten

/-- The record builder's invariant: every recorded bullet index is below the
next line index; the recorded bullet indices are strictly increasing across
the whole state (each input line contributed at most one bullet, to the
position current at that moment); the employers of the built positions are,
in order, exactly the employer headings encountered; and no recorded bullet
text is empty. -/
def Inv (s : BuildState) : Prop :=
  (∀ i ∈ allIdx s, i < s.idx) ∧
  (allIdx s).Pairwise (· < ·) ∧
  ((s.donePs ++ s.cur.toList).map PosB.employer = s.hds.map Prod.snd) ∧
  (∀ p ∈ s.donePs ++ s.cur.toList, ∀ b ∈ p.resp, b.2 ≠ "")

end JobApp

namespace JobApp

/-! # Theorems -/

/-! ## Small list lemmas -/

/-- `listAll` is the pointwise conjunction of membership statements. -/
theorem listAll_iff_forall {P : α → Prop} :
    ∀ {l : List α}, listAll P l ↔ ∀ a ∈ l, P a
  | [] => by simp [listAll]
  | a :: rest => by
    simp [listAll, listAll_iff_forall (l := rest)]

/-- `listAll` over a mapped list. -/
theorem listAll_map {f : α → β} {P : β → Prop} :
    ∀ l : List α, listAll P (l.map f) ↔ listAll (fun a => P (f a)) l
  | [] => by simp [listAll]
  | a :: rest => by
    simp [listAll, listAll_map (f := f) (P := P) rest]

/-- Members of `updateLast f l` are members of `l` or images under `f` of a
member of `l`. -/
theorem mem_updateLast {f : α → α} :
    ∀ {l : List α} {a : α}, a ∈ updateLast f l → a ∈ l ∨ ∃ b ∈ l, a = f b := by
  intro l
  induction l with
  | nil => simp [updateLast]
  | cons x rest ih =>
    intro a ha
    cases rest with
    | nil =>
      simp [updateLast] at ha
      exact Or.inr ⟨x, by simp, ha⟩
    | cons y t =>
      simp only [updateLast] at ha
      rcases List.mem_cons.mp ha with h | h
      · exact Or.inl (by simp [h])
      · rcases ih h with h' | ⟨b, hb, rfl⟩
        · exact Or.inl (List.mem_cons_of_mem _ h')
        · exact Or.inr ⟨b, List.mem_cons_of_mem _ hb, rfl⟩

/-- `updateLast` with a first-component-preserving function does not change
the list of first components. -/
theorem map_fst_updateLast {g : α × β → β} :
    ∀ l : List (α × β), (updateLast (fun b => (b.1, g b)) l).map Prod.fst = l.map Prod.fst := by
  intro l
  induction l with
  | nil => simp [updateLast]
  | cons x rest ih =>
    cases rest with
    | nil => simp [updateLast]
    | cons y t => simpa [updateLast] using ih

/-- A flattened list bound: if every block has at most one element, the
flattened list is no longer than the block list. -/
theorem flatMap_length_le_of_le_one {f : α → List β} :
    ∀ l : List α, (∀ a ∈ l, (f a).length ≤ 1) → (l.flatMap f).length ≤ l.length := by
  intro l
  induction l with
  | nil => simp
  | cons a rest ih =>
    intro h
    have ha := h a (by simp)
    have := ih fun b hb => h b (List.mem_cons_of_mem _ hb)
    simp only [List.flatMap_cons, List.length_append, List.length_cons]
    omega

/-- Pairwise strict order on a flattened list makes the blocks pairwise
disjoint. -/
theorem pairwise_disjoint_of_flatten_lt :
    ∀ L : List (List Nat), L.flatten.Pairwise (· < ·) →
      L.Pairwise fun a b => ∀ x ∈ a, x ∉ b := by
  intro L
  induction L with
  | nil => simp
  | cons a L ih =>
    intro h
    rw [List.flatten_cons, List.pairwise_append] at h
    obtain ⟨_, hL, hcross⟩ := h
    refine List.Pairwise.cons ?_ (ih hL)
    intro b hb x hxa hxb
    have : x < x := hcross x hxa x (List.mem_flatten.mpr ⟨b, hb, hxb⟩)
    omega

/-- Pairwise strict order on a flattened list holds inside every block. -/
theorem pairwise_blocks_of_flatten_lt :
    ∀ L : List (List Nat), L.flatten.Pairwise (· < ·) →
      listAll (fun a => a.Pairwise (· < ·)) L := by
  intro L
  induction L with
  | nil => simp [listAll]
  | cons a L ih =>
    intro h
    rw [List.flatten_cons, List.pairwise_append] at h
    exact ⟨h.1, ih h.2.1⟩

/-! ## C2: `main`'s processing branch reads `revised_cv` before assignment -/

/-- C2: in `main`'s processing branch, `validate_outputs` is called (line
781) with `revised_cv` and `cover_letter` before those locals are first
assigned (lines 792-793), so on every run in which `crew.kickoff` succeeds
the call raises an unbound-local name error — the run of the `try:` block
stops at that statement on the local `revised_cv`, nothing has been stored
into `st.session_state`, and the success path of the branch is
unreachable. -/
theorem main_success_path_unreachable :
    mainProcessingRun.2 = some "revised_cv" ∧ mainProcessingRun.1.stored = false := by
  constructor <;> rfl

/-! ## C10: shape of `validate_outputs` warnings -/

/-- The inner pattern loop of the CV check yields at most one warning per
section. -/
theorem sectionScan_length_le_one (sect : String) :
    ∀ ps : List RE, (sectionScan sect ps).length ≤ 1 := by
  intro ps
  induction ps with
  | nil => simp [sectionScan]
  | cons p rest ih =>
    simp only [sectionScan]
    split
    · split
      · simp
      · exact ih
    · exact ih

/-- The cover-letter loop yields at most one warning (its break leaves the
whole loop). -/
theorem clScan_length_le_one : ∀ lines : List String, (clScan lines).length ≤ 1 := by
  intro lines
  induction lines with
  | nil => simp [clScan]
  | cons l rest ih =>
    simp only [clScan]
    split
    · simp
    · exact ih

/-- C10 counterexample: with a non-empty `cv_extraction`, a revised CV whose
`###` sections each contain two percentage figures and more than eight `-`
pieces receives **two** `cv_warnings` — the `break` of the CV loop exits
only the inner pattern loop, not the loop over sections, so the claim that
each scanning loop appends at most one warning is false. -/
theorem validate_outputs_two_cv_warnings :
    validate_outputs "### A\n1% 2% --------\n### C\n3% 4% --------" "" "x" =
      ([cvSectionMsg, cvSectionMsg], []) := by
  rfl

/-- C10 (amended): with empty `cv_extraction` no checking happens and both
warning lists are empty; `cover_letter_warnings` never holds more than one
warning; and the CV loop appends at most one warning per `###` section, so
`cv_warnings` is bounded by the number of sections (not by one). -/
theorem validate_outputs_warning_bounds (revised_cv cover_letter cv_extraction : String) :
    (cv_extraction = "" → validate_outputs revised_cv cover_letter cv_extraction = ([], [])) ∧
    (validate_outputs revised_cv cover_letter cv_extraction).1.length ≤
      (cvSections revised_cv).length ∧
    (validate_outputs revised_cv cover_letter cv_extraction).2.length ≤ 1 := by
  refine ⟨fun h => by simp [validate_outputs, h], ?_, ?_⟩
  · by_cases h : cv_extraction = ""
    · simp [validate_outputs, h]
    · simp only [validate_outputs, if_neg h]
      exact flatMap_length_le_of_le_one _ fun sect _ => sectionScan_length_le_one sect _
  · by_cases h : cv_extraction = ""
    · simp [validate_outputs, h]
    · simp only [validate_outputs, if_neg h]
      split
      · next hcond =>
        have := (Bool.and_eq_true _ _).mp hcond
        have hempty := List.isEmpty_iff.mp this.2
        simp only [hempty]
        simp
      · exact clScan_length_le_one _

/-! ## C9: `extract_fit_score` -/

/-- A block `r` begins with a non-digit character, or is empty. -/
def headNotDigit (r : List Char) : Prop :=
  ∀ c, r.head? = some c → c.isDigit = false

/-- `takeDigits` decomposes its input into its maximal digit prefix and a
rest that does not start with a digit. -/
theorem takeDigits_spec :
    ∀ cs : List Char, cs = (takeDigits cs).1 ++ (takeDigits cs).2 ∧
      (∀ c ∈ (takeDigits cs).1, c.isDigit = true) ∧ headNotDigit (takeDigits cs).2 := by
  intro cs
  induction cs with
  | nil =>
    refine ⟨rfl, by simp [takeDigits], ?_⟩
    intro c h
    simp [takeDigits] at h
  | cons c rest ih =>
    by_cases hc : c.isDigit
    · obtain ⟨he, hd, hh⟩ := ih
      refine ⟨?_, ?_, ?_⟩
      · simpa [takeDigits, hc] using he
      · intro x hx
        simp only [takeDigits, hc, if_true] at hx
        rcases List.mem_cons.mp hx with rfl | hx
        · exact hc
        · exact hd x hx
      · simpa [takeDigits, hc] using hh
    · have ht : takeDigits (c :: rest) = ([], c :: rest) := by simp [takeDigits, hc]
      refine ⟨by rw [ht]; rfl, by rw [ht]; simp, ?_⟩
      rw [ht]
      intro x hx
      have hxc : x = c := by simpa using hx.symm
      subst hxc
      simpa using hc

/-- A decomposition into an all-digit block followed by a block that does
not begin with a digit is unique. -/
theorem digit_decomp_unique :
    ∀ ds ds' r r' : List Char, ds ++ r = ds' ++ r' →
      (∀ c ∈ ds, c.isDigit = true) → (∀ c ∈ ds', c.isDigit = true) →
      headNotDigit r → headNotDigit r' → ds = ds' ∧ r = r' := by
  intro ds
  induction ds with
  | nil =>
    intro ds' r r' he _ hd' hr _
    cases ds' with
    | nil => exact ⟨rfl, by simpa using he⟩
    | cons d' t' =>
      exfalso
      have hr2 : r = d' :: (t' ++ r') := by simpa using he
      have h1 := hr d' (by simp [hr2])
      have h2 := hd' d' (by simp)
      rw [h2] at h1
      exact Bool.true_eq_false.mp h1
  | cons d t ih =>
    intro ds' r r' he hd hd' hr hr'
    cases ds' with
    | nil =>
      exfalso
      have hr2 : r' = d :: (t ++ r) := by simpa using he.symm
      have h1 := hr' d (by simp [hr2])
      have h2 := hd d (by simp)
      rw [h2] at h1
      exact Bool.true_eq_false.mp h1
    | cons d' t' =>
      simp only [List.cons_append] at he
      injection he with hd0 ht
      obtain ⟨e1, e2⟩ := ih t' r r' ht (fun c hc => hd c (List.mem_cons_of_mem _ hc))
        (fun c hc => hd' c (List.mem_cons_of_mem _ hc)) hr hr'
      exact ⟨by rw [hd0, e1], e2⟩

/-- Shifting a `pctMatchAt` offset across a leading character. -/
theorem pctMatchAt_cons_succ {c : Char} {cs : List Char} {i n : Nat} :
    pctMatchAt (c :: cs) (i + 1) n ↔ pctMatchAt cs i n := by
  simp [pctMatchAt, List.drop_succ_cons]

/-- If nothing matches `(\d+)%` anywhere, `searchPct` finds nothing. -/
theorem searchPct_eq_none :
    ∀ cs : List Char, (∀ i n, ¬ pctMatchAt cs i n) → searchPct cs = none := by
  intro cs
  induction cs with
  | nil => intro _; rfl
  | cons c rest ih =>
    intro h
    have hrest : ∀ i n, ¬ pctMatchAt rest i n := fun i n hm =>
      h (i + 1) n (pctMatchAt_cons_succ.mpr hm)
    by_cases hc : c.isDigit
    · obtain ⟨he, hd, hh⟩ := takeDigits_spec (c :: rest)
      rcases h2 : (takeDigits (c :: rest)).2 with _ | ⟨c', r⟩
      · simp only [searchPct, hc, if_true, h2]
        exact ih hrest
      · by_cases hpc : c' = '%'
        · exfalso
          subst hpc
          have hne : (takeDigits (c :: rest)).1 ≠ [] := by
            simp [takeDigits, hc]
          rw [h2] at he
          exact h 0 (digitsVal (takeDigits (c :: rest)).1)
            ⟨(takeDigits (c :: rest)).1, r, by rw [List.drop_zero]; exact he, hne, hd, rfl⟩
        · simp only [searchPct, hc, if_true, h2]
          split
          · next heq =>
            injection heq with h1 _
            exact absurd h1 hpc
          · exact ih hrest
    · simp only [searchPct, hc, if_false]
      exact ih hrest

/-- `searchPct` returns the value of the leftmost `(\d+)%` match. -/
theorem searchPct_eq_some :
    ∀ (cs : List Char) (i n : Nat), pctMatchAt cs i n →
      (∀ j, j < i → ∀ m, ¬ pctMatchAt cs j m) → searchPct cs = some n := by
  intro cs
  induction cs with
  | nil =>
    intro i n hm _
    obtain ⟨ds, rs, he, _, _, _⟩ := hm
    rw [List.drop_nil] at he
    exfalso
    cases ds <;> simp at he
  | cons c rest ih =>
    intro i n hm hmin
    cases i with
    | zero =>
      obtain ⟨ds, rs, he, hne, hd, hv⟩ := hm
      rw [List.drop_zero] at he
      obtain ⟨he', hd', hh'⟩ := takeDigits_spec (c :: rest)
      obtain ⟨e1, e2⟩ := digit_decomp_unique ds (takeDigits (c :: rest)).1 ('%' :: rs)
        (takeDigits (c :: rest)).2 (by rw [← he, ← he']) hd hd'
        (fun x hx => by
          simp only [List.head?_cons, Option.some.injEq] at hx
          subst hx
          decide) hh'
      have hcdig : c.isDigit = true := by
        cases ds with
        | nil => exact absurd rfl hne
        | cons d t =>
          have hcd : c = d := by simpa using congrArg List.head? he
          exact hcd ▸ hd d (by simp)
      simp only [searchPct, hcdig, if_true, ← e2]
      subst hv
      rw [e1]
    | succ j =>
      have hrest : pctMatchAt rest j n := pctMatchAt_cons_succ.mp hm
      have hminr : ∀ k, k < j → ∀ m, ¬ pctMatchAt rest k m := fun k hk m hmk =>
        hmin (k + 1) (by omega) m (pctMatchAt_cons_succ.mpr hmk)
      have hnot0 : ∀ m, ¬ pctMatchAt (c :: rest) 0 m := fun m => hmin 0 (by omega) m
      by_cases hc : c.isDigit
      · obtain ⟨he, hd, hh⟩ := takeDigits_spec (c :: rest)
        rcases h2 : (takeDigits (c :: rest)).2 with _ | ⟨c', r⟩
        · simp only [searchPct, hc, if_true, h2]
          exact ih j n hrest hminr
        · by_cases hpc : c' = '%'
          · exfalso
            subst hpc
            have hne : (takeDigits (c :: rest)).1 ≠ [] := by
              simp [takeDigits, hc]
            rw [h2] at he
            exact hnot0 (digitsVal (takeDigits (c :: rest)).1)
              ⟨(takeDigits (c :: rest)).1, r, by rw [List.drop_zero]; exact he, hne, hd, rfl⟩
          · simp only [searchPct, hc, if_true, h2]
            split
            · next heq =>
              injection heq with h1 _
              exact absurd h1 hpc
            · exact ih j n hrest hminr
      · simp only [searchPct, hc, if_false]
        exact ih j n hrest hminr

/-- The category expression of `extract_fit_score`, characterized by the
score thresholds. -/
theorem category_of_score (k : Nat) :
    ((if 75 ≤ k then "HIGH" else if 50 ≤ k then "MEDIUM" else "LOW") = "HIGH" ↔ 75 ≤ k) ∧
    ((if 75 ≤ k then "HIGH" else if 50 ≤ k then "MEDIUM" else "LOW") = "MEDIUM" ↔
      50 ≤ k ∧ k < 75) ∧
    ((if 75 ≤ k then "HIGH" else if 50 ≤ k then "MEDIUM" else "LOW") = "LOW" ↔ k < 50) := by
  by_cases h1 : 75 ≤ k
  · rw [if_pos h1]
    exact ⟨⟨fun _ => h1, fun _ => rfl⟩,
      ⟨fun hx => absurd hx (by decide), fun hx => absurd h1 (by omega)⟩,
      ⟨fun hx => absurd hx (by decide), fun hx => absurd h1 (by omega)⟩⟩
  · rw [if_neg h1]
    by_cases h2 : 50 ≤ k
    · rw [if_pos h2]
      exact ⟨⟨fun hx => absurd hx (by decide), fun hx => absurd hx h1⟩,
        ⟨fun _ => ⟨h2, by omega⟩, fun _ => rfl⟩,
        ⟨fun hx => absurd hx (by decide), fun hx => absurd h2 (by omega)⟩⟩
    · rw [if_neg h2]
      exact ⟨⟨fun hx => absurd hx (by decide), fun hx => absurd hx h1⟩,
        ⟨fun hx => absurd hx (by decide), fun hx => absurd hx.1 h2⟩,
        ⟨fun _ => by omega, fun _ => rfl⟩⟩

/-- C9: `extract_fit_score` returns the integer of the leftmost run of
digits immediately followed by `%` (50 when no percentage occurs), and the
category is `HIGH` exactly when the score is at least 75, `MEDIUM` exactly
when it is between 50 and 74, and `LOW` exactly when it is below 50; in
particular a text with no percentage yields `(50, "MEDIUM")`. -/
theorem extract_fit_score_correct (s : String) :
    ((∀ i n, ¬ pctMatchAt s.toList i n) → extract_fit_score s = (50, "MEDIUM")) ∧
    (∀ i n, pctMatchAt s.toList i n → (∀ j, j < i → ∀ m, ¬ pctMatchAt s.toList j m) →
      (extract_fit_score s).1 = n) ∧
    ((extract_fit_score s).2 = "HIGH" ↔ 75 ≤ (extract_fit_score s).1) ∧
    ((extract_fit_score s).2 = "MEDIUM" ↔
      50 ≤ (extract_fit_score s).1 ∧ (extract_fit_score s).1 < 75) ∧
    ((extract_fit_score s).2 = "LOW" ↔ (extract_fit_score s).1 < 50) := by
  have hcat : (extract_fit_score s).2 =
      (if 75 ≤ (extract_fit_score s).1 then "HIGH"
       else if 50 ≤ (extract_fit_score s).1 then "MEDIUM" else "LOW") := rfl
  obtain ⟨hH, hM, hL⟩ := category_of_score (extract_fit_score s).1
  refine ⟨?_, ?_, hcat ▸ hH, hcat ▸ hM, hcat ▸ hL⟩
  · intro h
    have hn : searchPct s.data = none := searchPct_eq_none s.toList h
    simp [extract_fit_score, hn]
  · intro i n hm hmin
    have hs : searchPct s.data = some n := searchPct_eq_some s.toList i n hm hmin
    simp [extract_fit_score, hs]

/-- C9 witness: on `"85% fit"` the leftmost percentage match is `85%` at
offset 0, and the theorem yields score 85 with category `HIGH`. -/
theorem extract_fit_score_correct_witness :
    (extract_fit_score "85% fit").1 = 85 ∧ (extract_fit_score "85% fit").2 = "HIGH" := by
  have h := extract_fit_score_correct "85% fit"
  have hv : (extract_fit_score "85% fit").1 = 85 :=
    h.2.1 0 85 ⟨['8', '5'], " fit".toList, by decide, by decide, by decide, by decide⟩
      (fun j hj m => absurd hj (by omega))
  exact ⟨hv, h.2.2.1.mpr (by rw [hv]; omega)⟩

/-! ## The record-builder invariant -/

/-- A space-joined string is never empty. -/
theorem append_space_ne_empty (a b : String) : a ++ " " ++ b ≠ "" := by
  intro h
  have hlen := congrArg String.length h
  rw [String.length_append, String.length_append] at hlen
  have hsp : (" " : String).length = 1 := rfl
  have hem : ("" : String).length = 0 := rfl
  omega

/-- The invariant holds initially. -/
theorem inv_initState : Inv initState := by
  refine ⟨?_, ?_, ?_, ?_⟩ <;> simp [Inv, allIdx, initState]

/-- One builder step preserves the invariant. -/
theorem inv_stepLine (s : BuildState) (line : String) (h : Inv s) : Inv (stepLine s line) := by
  obtain ⟨h1, h2, h3, h4⟩ := h
  simp only [allIdx] at h1 h2
  cases hsec : sectionOf line with
  | some sec' =>
    simp only [stepLine, hsec, Inv, allIdx, List.map_append, List.flatten_append,
      Option.toList_none, List.append_nil]
    simp only [List.map_append, List.flatten_append] at h1 h2 h3
    refine ⟨fun i hi => Nat.lt_succ_of_lt (h1 i hi), h2, h3, ?_⟩
    intro q hq
    exact h4 q (by simpa using hq)
  | none =>
    cases hsc : s.sec with
    | nosection =>
      simp only [stepLine, hsec, hsc, Inv, allIdx]
      exact ⟨fun i hi => Nat.lt_succ_of_lt (h1 i hi), h2, h3, h4⟩
    | education =>
      simp only [stepLine, hsec, hsc, Inv, allIdx]
      exact ⟨fun i hi => Nat.lt_succ_of_lt (h1 i hi), h2, h3, h4⟩
    | skills =>
      simp only [stepLine, hsec, hsc, Inv, allIdx]
      exact ⟨fun i hi => Nat.lt_succ_of_lt (h1 i hi), h2, h3, h4⟩
    | experience =>
      simp only [stepLine, hsec, hsc, expLine]
      split
      · -- rule 1: a bullet line
        split
        · -- empty bullet text: the line is discarded
          simp only [Inv, allIdx]
          exact ⟨fun i hi => Nat.lt_succ_of_lt (h1 i hi), h2, h3, h4⟩
        · next htxt =>
          cases hcur : s.cur with
          | none =>
            -- a bullet with no in-progress position is discarded
            simp only [hcur, Option.toList_none, List.append_nil, List.map_append,
              List.flatten_append] at h1 h2 h3 h4
            simp only [Inv, allIdx, Option.toList_none, List.append_nil]
            exact ⟨fun i hi => Nat.lt_succ_of_lt (h1 i hi), h2, h3, h4⟩
          | some p =>
            simp only [hcur, Option.toList_some, List.map_append, List.flatten_append,
              List.map_cons, List.map_nil, List.flatten_cons, List.flatten_nil,
              List.append_nil] at h1 h2 h3 h4
            simp only [Inv, allIdx, Option.toList_some, List.map_append,
              List.flatten_append, List.map_cons, List.map_nil, List.flatten_cons,
              List.flatten_nil, List.append_nil]
            refine ⟨?_, ?_, ?_, ?_⟩
            · intro i hi
              rcases List.mem_append.mp hi with hi | hi
              · exact Nat.lt_succ_of_lt (h1 i (List.mem_append.mpr (Or.inl hi)))
              · rcases List.mem_append.mp hi with hi | hi
                · exact Nat.lt_succ_of_lt (h1 i (List.mem_append.mpr (Or.inr hi)))
                · simp at hi
                  omega
            · rw [← List.append_assoc, List.pairwise_append]
              refine ⟨h2, List.pairwise_singleton _ _, ?_⟩
              intro a ha b hb
              simp at hb
              subst hb
              exact h1 a ha
            · exact h3
            · intro q hq b hb
              simp only [List.mem_append, List.mem_cons, List.not_mem_nil, or_false] at hq
              rcases hq with hq | hq
              · exact h4 q (List.mem_append.mpr (Or.inl hq)) b hb
              · subst hq
                simp only [List.mem_append, List.mem_cons, List.not_mem_nil, or_false] at hb
                rcases hb with hb | hb
                · exact h4 p (by simp) b hb
                · subst hb
                  exact htxt
      · -- not a bullet line
        split
        · -- rule 2: an employer heading seals and opens a position
          simp only [List.map_append, List.flatten_append] at h1 h2 h3
          simp only [Inv, allIdx, Option.toList_some, List.map_append,
            List.flatten_append, List.map_cons, List.map_nil, List.flatten_cons,
            List.flatten_nil, List.append_nil]
          refine ⟨fun i hi => Nat.lt_succ_of_lt (h1 i hi), h2, ?_, ?_⟩
          · rw [h3]
          · intro q hq b hb
            simp only [List.mem_append, List.mem_cons, List.not_mem_nil, or_false] at hq
            rcases hq with (hq | hq) | hq
            · exact h4 q (List.mem_append.mpr (Or.inl hq)) b hb
            · exact h4 q (List.mem_append.mpr (Or.inr hq)) b hb
            · subst hq
              simp at hb
        · cases hcur : s.cur with
          | none =>
            -- rules 3-4 need an in-progress position; none: line discarded
            simp only [hcur, Option.toList_none, List.append_nil, List.map_append,
              List.flatten_append] at h1 h2 h3 h4
            simp only [Inv, allIdx, Option.toList_none, List.append_nil]
            exact ⟨fun i hi => Nat.lt_succ_of_lt (h1 i hi), h2, h3, h4⟩
          | some p =>
            simp only [hcur, Option.toList_some, List.map_append, List.flatten_append,
              List.map_cons, List.map_nil, List.flatten_cons, List.flatten_nil,
              List.append_nil] at h1 h2 h3 h4
            simp only []
            split
            · -- rule 3: title (and possibly dates) assignment
              simp only [Inv, allIdx, Option.toList_some, List.map_append,
                List.flatten_append, List.map_cons, List.map_nil, List.flatten_cons,
                List.flatten_nil, List.append_nil]
              refine ⟨fun i hi => Nat.lt_succ_of_lt (h1 i hi), h2, h3, ?_⟩
              intro q hq b hb
              simp only [List.mem_append, List.mem_cons, List.not_mem_nil, or_false] at hq
              rcases hq with hq | hq
              · exact h4 q (List.mem_append.mpr (Or.inl hq)) b hb
              · subst hq
                exact h4 p (by simp) b hb
            · split
              · -- rule 4: continuation appended to the title
                simp only [Inv, allIdx, Option.toList_some, List.map_append,
                  List.flatten_append, List.map_cons, List.map_nil, List.flatten_cons,
                  List.flatten_nil, List.append_nil]
                refine ⟨fun i hi => Nat.lt_succ_of_lt (h1 i hi), h2, h3, ?_⟩
                intro q hq b hb
                simp only [List.mem_append, List.mem_cons, List.not_mem_nil, or_false] at hq
                rcases hq with hq | hq
                · exact h4 q (List.mem_append.mpr (Or.inl hq)) b hb
                · subst hq
                  exact h4 p (by simp) b hb
              · -- rule 4: continuation merged into the last bullet
                simp only [Inv, allIdx, Option.toList_some, List.map_append,
                  List.flatten_append, List.map_cons, List.map_nil, List.flatten_cons,
                  List.flatten_nil, List.append_nil, map_fst_updateLast]
                refine ⟨fun i hi => Nat.lt_succ_of_lt (h1 i hi), h2, h3, ?_⟩
                intro q hq b hb
                simp only [List.mem_append, List.mem_cons, List.not_mem_nil, or_false] at hq
                rcases hq with hq | hq
                · exact h4 q (List.mem_append.mpr (Or.inl hq)) b hb
                · subst hq
                  simp only at hb
                  rcases mem_updateLast hb with hb' | ⟨x, hx, rfl⟩
                  · exact h4 p (by simp) b hb'
                  · exact append_space_ne_empty _ _

/-- The invariant holds after any run of the builder. -/
theorem inv_foldl : ∀ (ls : List String) (s : BuildState), Inv s → Inv (ls.foldl stepLine s) := by
  intro ls
  induction ls with
  | nil => exact fun s h => h
  | cons l rest ih => exact fun s h => ih (stepLine s l) (inv_stepLine s l h)

/-- The invariant holds for every input's final builder state. -/
theorem inv_buildRun (t : String) : Inv (buildRun t) :=
  inv_foldl (normalize t) initState inv_initState

/-! ## C1: no cross-attribution -/

/-- C1: each bullet instance is recorded under exactly one position.  Every
recorded bullet carries the index of the input line that created it; across
the positions of a parse the per-position index lists are pairwise disjoint
(no bullet instance occurs under two different positions), and erasing the
ghost indices yields exactly the positions of the returned
`StructuredResume`, so no recorded bullet text instance is shared between
two `Position.responsibilities` lists. -/
theorem no_cross_attribution (t : String) :
    (((positionsB t).map fun p => p.resp.map Prod.fst).Pairwise
      fun a b => ∀ x ∈ a, x ∉ b) ∧
    (parse t).positions = (positionsB t).map toPosition := by
  obtain ⟨_, h2, _, _⟩ := inv_buildRun t
  refine ⟨pairwise_disjoint_of_flatten_lt _ h2, rfl⟩

/-! ## C3: the trailing in-progress position is always flushed -/

/-- C3: when at least one employer heading was encountered, the parser emits
one position per heading — in particular the final in-progress position is
flushed at end of input (or at the last section switch) — and the last
element of `positions` carries the employer of the last heading
encountered. -/
theorem trailing_position_flushed (t : String) (h : (buildRun t).hds ≠ []) :
    (parse t).positions.length = (buildRun t).hds.length ∧
    ∃ p hd, (parse t).positions.getLast? = some p ∧
      (buildRun t).hds.getLast? = some hd ∧ p.employer = hd.2 := by
  obtain ⟨_, _, h3, _⟩ := inv_buildRun t
  have hmap : (parse t).positions.map Position.employer = (buildRun t).hds.map Prod.snd := by
    have : (parse t).positions.map Position.employer =
        ((buildRun t).donePs ++ (buildRun t).cur.toList).map PosB.employer := by
      show (((buildRun t).donePs ++ (buildRun t).cur.toList).map toPosition).map
        Position.employer = _
      rw [List.map_map]
      rfl
    rw [this, h3]
  have hlen : (parse t).positions.length = (buildRun t).hds.length := by
    have := congrArg List.length hmap
    simpa using this
  refine ⟨hlen, ?_⟩
  have hne : (parse t).positions ≠ [] := by
    intro hnil
    apply h
    have := hlen
    rw [hnil] at this
    exact List.eq_nil_of_length_eq_zero this.symm
  obtain ⟨p, hp⟩ := Option.isSome_iff_exists.mp (List.getLast?_isSome.mpr hne)
  obtain ⟨hd, hhd⟩ := Option.isSome_iff_exists.mp (List.getLast?_isSome.mpr h)
  refine ⟨p, hd, hp, hhd, ?_⟩
  have hlast := congrArg List.getLast? hmap
  rw [List.getLast?_map, List.getLast?_map, hp, hhd] at hlast
  simpa using hlast

/-- C3 witness: a résumé whose last line is a bullet of the final job still
yields that job as the last position. -/
theorem trailing_position_flushed_witness :
    (parse "EXPERIENCE\nAcme Corp – Consulting\n• Did X").positions.length =
      (buildRun "EXPERIENCE\nAcme Corp – Consulting\n• Did X").hds.length ∧
    ∃ p hd,
      (parse "EXPERIENCE\nAcme Corp – Consulting\n• Did X").positions.getLast? = some p ∧
      (buildRun "EXPERIENCE\nAcme Corp – Consulting\n• Did X").hds.getLast? = some hd ∧
      p.employer = hd.2 :=
  trailing_position_flushed "EXPERIENCE\nAcme Corp – Consulting\n• Did X" (by decide)

/-! ## C4: order preservation -/

/-- C4: the positions appear in the order their employer headings were
encountered (the employer sequence of the output equals the heading sequence,
never reordered or deduplicated), and within each position the recorded
bullets keep strictly increasing source-line indices, so each
`responsibilities` list preserves source bullet order with no reordering or
deduplication of instances. -/
theorem order_preservation (t : String) :
    (parse t).positions.map Position.employer = (buildRun t).hds.map Prod.snd ∧
    listAll (fun p => (p.resp.map Prod.fst).Pairwise (· < ·)) (positionsB t) := by
  obtain ⟨_, h2, h3, _⟩ := inv_buildRun t
  constructor
  · have : (parse t).positions.map Position.employer =
        ((buildRun t).donePs ++ (buildRun t).cur.toList).map PosB.employer := by
      show (((buildRun t).donePs ++ (buildRun t).cur.toList).map toPosition).map
        Position.employer = _
      rw [List.map_map]
      rfl
    rw [this, h3]
  · exact (listAll_map _).mp (pairwise_blocks_of_flatten_lt _ h2)

/-! ## C5: bullet-line handling -/

/-- C5 counterexample: the section tracker (§4.2) tests **every** line for a
section marker by case-insensitive substring matching, before the
experience tagger runs, so the bullet line `• Improved data skills` —
encountered in the experience section while an employer is current — is
classified as a `SKILLS` section header rather than a `BULLET`: its text is
recorded in no position's responsibilities (the sole position stays empty),
refuting "a line beginning with • is always classified BULLET". -/
theorem bullet_always_bullet_counterexample :
    sectionOf "• Improved data skills" = some Sect.skills ∧
    (parse "EXPERIENCE\nAcme Corp – X\n• Improved data skills").positions =
      [⟨"Acme Corp", "", "", "", []⟩] := by
  constructor <;> rfl

/-- C5 (amended): for every line processed in the experience section that
begins with `•` and is **not** a section-marker line, the line is treated as
a bullet regardless of whether an employer is current: its text is
everything after the glyph, trimmed; if that text is empty (or no position
is in progress to attach it to) the line is discarded; otherwise it is
appended to the current position.  Moreover no empty-string bullet is ever
recorded in any position's responsibilities of any parse. -/
theorem bullet_rule (t : String) :
    listAll (fun p => listAll (fun b => b ≠ "") p.responsibilities) (parse t).positions ∧
    (∀ (s : BuildState) (line : String) (rest : List Char) (p : PosB),
      s.sec = Sect.experience → sectionOf line = none → line.toList = '•' :: rest →
      s.cur = some p →
      stepLine s line =
        (if String.mk (trimL rest) = "" then { s with idx := s.idx + 1 }
         else { s with
           cur := some { p with resp := p.resp ++ [(s.idx, String.mk (trimL rest))] },
           idx := s.idx + 1 })) ∧
    (∀ (s : BuildState) (line : String) (rest : List Char),
      s.sec = Sect.experience → sectionOf line = none → line.toList = '•' :: rest →
      s.cur = none → stepLine s line = { s with idx := s.idx + 1 }) := by
  refine ⟨?_, ?_, ?_⟩
  · obtain ⟨_, _, _, h4⟩ := inv_buildRun t
    rw [listAll_iff_forall]
    intro q hq
    rw [listAll_iff_forall]
    intro b hb
    obtain ⟨pb, hpb, rfl⟩ : ∃ pb ∈ (buildRun t).donePs ++ (buildRun t).cur.toList,
        toPosition pb = q := by
      simpa using List.mem_map.mp hq
    obtain ⟨x, hx, rfl⟩ := List.mem_map.mp hb
    exact h4 pb hpb x hx
  · intro s line rest p hsc hsec hline hcur
    simp only [stepLine, hsec, hsc, expLine, hline, hcur]
  · intro s line rest hsc hsec hline hcur
    simp only [stepLine, hsec, hsc, expLine, hline, hcur]
    split <;> rfl

/-! ## C6: no sections found -/

/-- C6 counterexample: the empty input contains no section marker, yet the
parser does not return an empty `StructuredResume` for it — empty input is
below the minimum usable length, so the parser reports an extraction failure
instead (§7 makes the length gate run first), refuting the claim for
"every input text". -/
theorem no_sections_short_input_counterexample :
    (∀ l ∈ normalize "", sectionOf l = none) ∧
    parseResume "" = Except.error ParseError.extractionFailure := by
  constructor
  · decide
  · rfl

/-- C6 (amended): for every input of at least the minimum usable length in
which no section header is ever detected, the parser raises no error and
returns a `StructuredResume` whose positions, education and skills are all
empty. -/
theorem no_sections_empty_record (t : String) (hlen : minUsableLength ≤ t.length)
    (hno : ∀ l ∈ normalize t, sectionOf l = none) :
    parseResume t = Except.ok ⟨[], [], ⟨[], []⟩⟩ := by
  have hrun : ∀ (ls : List String) (s : BuildState), s.sec = Sect.nosection →
      (∀ l ∈ ls, sectionOf l = none) →
      ls.foldl stepLine s = { s with idx := s.idx + ls.length } := by
    intro ls
    induction ls with
    | nil => intro s _ _; simp
    | cons l rest ih =>
      intro s hs hl
      have hstep : stepLine s l = { s with idx := s.idx + 1 } := by
        simp only [stepLine, hl l (by simp), hs]
      rw [List.foldl_cons, hstep,
        ih { s with idx := s.idx + 1 } hs (fun x hx => hl x (List.mem_cons_of_mem _ hx))]
      have harith : s.idx + 1 + rest.length = s.idx + (rest.length + 1) := by omega
      simp only [List.length_cons, harith]
  have hfin : buildRun t = { initState with idx := (normalize t).length } := by
    unfold buildRun
    rw [hrun (normalize t) initState rfl hno]
    simp [initState]
  rw [parseResume, if_neg (by omega)]
  unfold parse
  rw [hfin]
  rfl

/-- C6 witness: a long-enough marker-free input yields the empty record. -/
theorem no_sections_empty_record_witness :
    parseResume "just some plain words here" = Except.ok ⟨[], [], ⟨[], []⟩⟩ :=
  no_sections_empty_record "just some plain words here" (by decide) (by decide)

/-! ## C7: extraction failure on short input -/

/-- C7: an input that is empty or below the minimum usable length is
reported as an extraction failure; the parsing pipeline is not run and no
partial `StructuredResume` is produced. -/
theorem short_input_extraction_failure (t : String) (h : t.length < minUsableLength) :
    parseResume t = Except.error ParseError.extractionFailure := by
  simp [parseResume, h]

/-- C7 witness: the ten-character input `"too short"` fails extraction. -/
theorem short_input_extraction_failure_witness :
    parseResume "too short" = Except.error ParseError.extractionFailure :=
  short_input_extraction_failure "too short" (by decide)

/-! ## C8: determinism -/

/-- C8: the parser is a pure function of its input: two invocations on the
same text return structurally identical records — same positions, education
lines and skills — with no hidden nondeterminism. -/
theorem parse_deterministic (t : String) (r₁ r₂ : StructuredResume)
    (h₁ : parseResume t = Except.ok r₁) (h₂ : parseResume t = Except.ok r₂) :
    r₁.positions = r₂.positions ∧ r₁.education = r₂.education ∧
      r₁.skills.technical = r₂.skills.technical ∧ r₁.skills.soft = r₂.skills.soft := by
  rw [h₁] at h₂
  cases h₂
  exact ⟨rfl, rfl, rfl, rfl⟩

/-- C8 witness: two parses of the same concrete résumé agree. -/
theorem parse_deterministic_witness :
    (parse "EXPERIENCE\nAcme Corp – Consulting\n• Did X").positions =
      (parse "EXPERIENCE\nAcme Corp – Consulting\n• Did X").positions ∧
    (parse "EXPERIENCE\nAcme Corp – Consulting\n• Did X").education =
      (parse "EXPERIENCE\nAcme Corp – Consulting\n• Did X").education ∧
    (parse "EXPERIENCE\nAcme Corp – Consulting\n• Did X").skills.technical =
      (parse "EXPERIENCE\nAcme Corp – Consulting\n• Did X").skills.technical ∧
    (parse "EXPERIENCE\nAcme Corp – Consulting\n• Did X").skills.soft =
      (parse "EXPERIENCE\nAcme Corp – Consulting\n• Did X").skills.soft :=
  parse_deterministic "EXPERIENCE\nAcme Corp – Consulting\n• Did X"
    (parse "EXPERIENCE\nAcme Corp – Consulting\n• Did X")
    (parse "EXPERIENCE\nAcme Corp – Consulting\n• Did X") rfl rfl

end JobApp
